import Mathlib

/- Shallow embedding of smallt.py, a small markdown task-list manager.
   Strings are lists of characters; the task file is one content list.
   Pure Python string functions become Lean functions over these lists;
   each task operation is split into its in-memory body (the code between
   load_tasks and save_tasks) and a content-level wrapper that performs the
   load / save steps.  A save that the operating system rejects is outside
   this pure model: the wrappers model the successful-write behaviour and
   expose, as a Bool, whether a write was issued at all. -/

abbrev Line := List Char
abbrev Content := List Char

/-- Line-break characters recognized by Python universal newlines together
with str.splitlines (the set relevant to load_tasks). -/
def isLineBreak (c : Char) : Bool :=
  c = '\n' || c = '\r' || c = '\x0b' || c = '\x0c' ||
  c = '\x1c' || c = '\x1d' || c = '\x1e' || c = '\x85' ||
  c = '\u2028' || c = '\u2029'

/-- Universal-newline translation performed by Path.read_text: CR LF and a
lone CR both become LF. -/
def translateNewlines : List Char → List Char
  | [] => []
  | '\r' :: '\n' :: rest => '\n' :: translateNewlines rest
  | '\r' :: rest => '\n' :: translateNewlines rest
  | c :: rest => c :: translateNewlines rest

/-- Python str.splitlines: split at any line-break character, CR LF counting
as one break; a trailing break produces no extra empty line. -/
def splitlines : List Char → List (List Char)
  | [] => []
  | '\r' :: '\n' :: rest => [] :: splitlines rest
  | c :: rest =>
    if isLineBreak c then
      [] :: splitlines rest
    else
      match splitlines rest with
      | [] => [[c]]
      | l :: ls => (c :: l) :: ls

/-- load_tasks: Path(TASK_FILE).read_text().splitlines(). -/
def load_tasks (c : Content) : List Line :=
  splitlines (translateNewlines c)

/-- Content written by save_tasks: the lines joined by a newline, plus one
trailing newline. -/
def save_tasks : List Line → Content
  | [] => ['\n']
  | [l] => l ++ ['\n']
  | l :: ls => l ++ '\n' :: save_tasks ls

/-- Python whitespace recognized by str.strip / str.split (ASCII range). -/
def isPyWs (c : Char) : Bool :=
  c = ' ' || c = '\t' || c = '\n' || c = '\r' || c = '\x0b' || c = '\x0c'

/-- Left part of str.strip. -/
def stripLeft (l : List Char) : List Char := l.dropWhile isPyWs

/-- Right part of str.strip. -/
def stripRight (l : List Char) : List Char := (l.reverse.dropWhile isPyWs).reverse

/-- Python str.strip with no argument. -/
def pyStrip (l : List Char) : List Char := stripRight (stripLeft l)

/-- Python str.lower on one character (ASCII range, which covers every
character these claims exercise). -/
def lowerChar (c : Char) : Char :=
  if 65 ≤ c.toNat ∧ c.toNat ≤ 90 then Char.ofNat (c.toNat + 32) else c

/-- Python str.lower. -/
def lowerStr (l : List Char) : List Char := l.map lowerChar

/-- Python substring membership: pat in l. -/
def containsSub (pat : List Char) : List Char → Bool
  | [] => pat.isEmpty
  | c :: rest => pat.isPrefixOf (c :: rest) || containsSub pat rest

/-- The three characters every task line starts with. -/
def taskMark : List Char := ['-', ' ', '[']

/-- Python line.startswith of the task-line test. -/
def isTaskLine (l : Line) : Bool := taskMark.isPrefixOf l

/-- The task lines of the file, in file order. -/
def tasksOf (ls : List Line) : List Line := ls.filter isTaskLine

/-- The non-task lines of the file, in file order. -/
def nonTasksOf (ls : List Line) : List Line := ls.filter (fun l => ! isTaskLine l)

/-- The list comprehension `[i for i, l in enumerate(lines) if l.startswith("- [")]`,
with the running index made explicit. -/
def taskIndicesFrom : Nat → List Line → List Nat
  | _, [] => []
  | s, l :: rest =>
    if isTaskLine l then s :: taskIndicesFrom (s + 1) rest
    else taskIndicesFrom (s + 1) rest

/-- Positions of the task lines among all lines. -/
def taskIndices (ls : List Line) : List Nat := taskIndicesFrom 0 ls

/-- The completion test used by check_task and list_tasks:
`"[x]" in line.lower()`. -/
def containsXLower (l : Line) : Bool := containsSub ['[', 'x', ']'] (lowerStr l)

/-- Whether the line contains an incomplete checkbox occurrence `[ ]`. -/
def hasOpenBox (l : Line) : Bool := containsSub ['[', ' ', ']'] l

/-- Python line.replace of the first occurrence: `line.replace("[ ]", "[x]", 1)`. -/
def replaceFirstBox : List Char → List Char
  | '[' :: ' ' :: ']' :: rest => '[' :: 'x' :: ']' :: rest
  | c :: rest => c :: replaceFirstBox rest
  | [] => []

/-- Python str.replace with no count, for a five-character pattern: every
non-overlapping occurrence is removed (replaced by the empty string),
scanning left to right.  All three patterns delete_task strips have five
characters, so this structural form captures them exactly. -/
def removeAll5 (p1 p2 p3 p4 p5 : Char) : List Char → List Char
  | c1 :: c2 :: c3 :: c4 :: c5 :: rest =>
    if c1 = p1 ∧ c2 = p2 ∧ c3 = p3 ∧ c4 = p4 ∧ c5 = p5 then
      removeAll5 p1 p2 p3 p4 p5 rest
    else c1 :: removeAll5 p1 p2 p3 p4 p5 (c2 :: c3 :: c4 :: c5 :: rest)
  | l => l

/-- The marker text delete_task strips from the reported line:
`line.replace("- [ ]", "").replace("- [x]", "").replace("- [X]", "").strip()`. -/
def stripMarkers (l : Line) : List Char :=
  pyStrip (removeAll5 '-' ' ' '[' 'X' ']'
    (removeAll5 '-' ' ' '[' 'x' ']'
      (removeAll5 '-' ' ' '[' ' ' ']' l)))

/-- The line prefix clear_done_tasks filters on: `l.startswith("- [x]")`. -/
def doneMark : List Char := ['-', ' ', '[', 'x', ']']

/-- Status outcomes of the task operations, one constructor for each of the
human-readable status strings the Python functions return (the save-failure
strings are the unreachable-on-successful-write branches and are omitted). -/
inductive OpResult where
  | notFound
  | alreadyComplete
  | checked (index : Nat)
  | deleted (text : List Char)
  | clearedDone (count : Nat)
  | clearedAll (count : Nat)
  | noTasks
  | emptyInput
  | added (text : List Char)
  | cancelled
  deriving DecidableEq

/-- Body of check_task between load_tasks and save_tasks.  The Bool records
whether save_tasks is invoked on that path. -/
def check_core (index : Nat) (lines : List Line) : OpResult × List Line × Bool :=
  let tl := taskIndices lines
  if index < 1 ∨ index > tl.length then (.notFound, lines, false)
  else
    let real := tl.getD (index - 1) 0
    let line := lines.getD real []
    if containsXLower line then (.alreadyComplete, lines, false)
    else (.checked index, lines.set real (replaceFirstBox line), true)

/-- Body of delete_task between load_tasks and save_tasks. -/
def delete_core (index : Nat) (lines : List Line) : OpResult × List Line × Bool :=
  let tl := taskIndices lines
  if index < 1 ∨ index > tl.length then (.notFound, lines, false)
  else
    let real := tl.getD (index - 1) 0
    (.deleted (stripMarkers (lines.getD real [])), lines.eraseIdx real, true)

/-- Body of clear_done_tasks between load_tasks and save_tasks. -/
def clear_done_core (lines : List Line) : OpResult × List Line × Bool :=
  let originalCount := (lines.filter (fun l => doneMark.isPrefixOf l)).length
  (.clearedDone originalCount, lines.filter (fun l => ! doneMark.isPrefixOf l), true)

/-- Body of clear_all_tasks between load_tasks and save_tasks. -/
def clear_all_core (lines : List Line) : OpResult × List Line × Bool :=
  let taskCount := (lines.filter isTaskLine).length
  if taskCount = 0 then (.noTasks, lines, false)
  else (.clearedAll taskCount, lines.filter (fun l => ! isTaskLine l), true)

/-- Run an operation body on file content: load, run, save if the body
saves.  The Bool in the result tells whether the file was written. -/
def runOnContent (core : List Line → OpResult × List Line × Bool) (c : Content) :
    OpResult × Content × Bool :=
  let r := core (load_tasks c)
  (r.1, if r.2.2 then save_tasks r.2.1 else c, r.2.2)

/-- check_task on file content. -/
def check_task (index : Nat) (c : Content) : OpResult × Content × Bool :=
  runOnContent (check_core index) c

/-- delete_task on file content. -/
def delete_task (index : Nat) (c : Content) : OpResult × Content × Bool :=
  runOnContent (delete_core index) c

/-- clear_done_tasks on file content. -/
def clear_done_tasks (c : Content) : OpResult × Content × Bool :=
  runOnContent clear_done_core c

/-- clear_all_tasks on file content. -/
def clear_all_tasks (c : Content) : OpResult × Content × Bool :=
  runOnContent clear_all_core c

/-- add_task on file content: appends `- [ ] {text.strip()}\n` to the raw
file (open in append mode), without rewriting the rest. -/
def add_task (text : List Char) (c : Content) : OpResult × Content × Bool :=
  if pyStrip text = [] then (.emptyInput, c, false)
  else (.added (pyStrip text),
        c ++ ['-', ' ', '[', ' ', ']', ' '] ++ pyStrip text ++ ['\n'], true)

/-- Normalization the shell applies to a command line before dispatch:
`input("").strip().lower()`. -/
def shellNormalize (line : List Char) : List Char := lowerStr (pyStrip line)

/-- Python str.split with no argument: maximal runs of non-whitespace. -/
def wordsOf : List Char → List (List Char)
  | [] => []
  | [c] => if isPyWs c then [] else [[c]]
  | c :: d :: rest =>
    if isPyWs c then wordsOf (d :: rest)
    else if isPyWs d then [c] :: wordsOf rest
    else
      match wordsOf (d :: rest) with
      | [] => [[c]]
      | w :: ws => (c :: w) :: ws

/-- Python " ".join. -/
def spaceJoin : List (List Char) → List Char
  | [] => []
  | [w] => w
  | w :: ws => w ++ ' ' :: spaceJoin ws

/-- The rest-of-line text the shell hands to add_task when the normalized
command starts with `add `: `" ".join(command.split()[1:])`.  None when the
line is not dispatched to add. -/
def shellAddText (line : List Char) : Option (List Char) :=
  let cmd := shellNormalize line
  if (['a', 'd', 'd', ' ']).isPrefixOf cmd then some (spaceJoin ((wordsOf cmd).drop 1))
  else none

/-- The clearall confirmation test: `input(...).strip().lower() == 'y'`;
end-of-input and interrupt are caught and treated as a refusal. -/
def shellConfirmClearAll : Option (List Char) → Bool
  | none => false
  | some s => lowerStr (pyStrip s) == ['y']

/-- The clearall branch of the shell: run clear_all_tasks only when the
confirmation passes, otherwise report Cancelled and leave the file alone. -/
def clearallCommand (confirm : Option (List Char)) (c : Content) :
    OpResult × Content × Bool :=
  if shellConfirmClearAll confirm then clear_all_tasks c
  else (.cancelled, c, false)

/-- Trailing-newline normalization named by the round-trip claim: a missing
final newline is added, nothing else changes. -/
def ensureTrailingNewline (c : Content) : Content :=
  if c.getLast? = some '\n' then c else c ++ ['\n']

/-- Completion in the sense of the specification's invariant: the line is a
task line and the character inside the brackets is x or X.  Stated from the
spec's words, for comparison with what the code computes. -/
def specCompleted (l : Line) : Bool :=
  isTaskLine l && (l.getD 3 ' ' = 'x' || l.getD 3 ' ' = 'X')


/-- No character of the list is a line break; the lines splitlines produces
all have this shape. -/
def breakFree (l : List Char) : Bool := l.all (fun ch => ! isLineBreak ch)

set_option maxHeartbeats 1000000

theorem splitlines_ne_nil : ∀ (c : List Char), c ≠ [] → splitlines c ≠ [] := by
  intro c
  induction c using splitlines.induct with
  | case1 => intro h; exact absurd rfl h
  | case2 rest ih => intro _; simp [splitlines]
  | case3 c rest hne hbrk ih =>
    intro _
    rw [splitlines.eq_3 c rest hne]
    simp [hbrk]
  | case4 c rest hne hbrk hsp ih =>
    intro _
    rw [splitlines.eq_3 c rest hne]
    simp [hbrk, hsp]
  | case5 c rest hne hbrk l ls hsp ih =>
    intro _
    rw [splitlines.eq_3 c rest hne]
    simp [hbrk, hsp]

theorem breakFree_splitlines : ∀ (c : List Char), ∀ l ∈ splitlines c, breakFree l = true := by
  intro c
  induction c using splitlines.induct with
  | case1 => intro l hl; simp [splitlines] at hl
  | case2 rest ih =>
    intro l hl
    rw [splitlines.eq_2] at hl
    rcases List.mem_cons.mp hl with h | h
    · simp [h, breakFree]
    · exact ih l h
  | case3 c rest hne hbrk ih =>
    intro l hl
    rw [splitlines.eq_3 c rest hne] at hl
    simp only [hbrk, if_pos] at hl
    rcases List.mem_cons.mp hl with h | h
    · simp [h, breakFree]
    · exact ih l h
  | case4 c rest hne hbrk hsp ih =>
    intro l hl
    rw [splitlines.eq_3 c rest hne] at hl
    simp only [hbrk, if_neg, hsp] at hl
    rcases List.mem_cons.mp hl with h | h
    · subst h
      have hb : isLineBreak c = false := by simpa using hbrk
      simp [breakFree, hb]
    · simp at h
  | case5 c rest hne hbrk l0 ls hsp ih =>
    intro l hl
    rw [splitlines.eq_3 c rest hne] at hl
    simp only [hbrk, if_neg, hsp] at hl
    rcases List.mem_cons.mp hl with h | h
    · subst h
      have hl0 : breakFree l0 = true := ih l0 (by rw [hsp]; exact List.mem_cons_self _ _)
      simp only [breakFree, List.all_cons, Bool.and_eq_true]
      exact ⟨by simpa using hbrk, hl0⟩
    · exact ih l (by rw [hsp]; exact List.mem_cons_of_mem _ h)

theorem getLast?_cons_of_ne_nil {α : Type} (a : α) (l : List α) (h : l ≠ []) :
    (a :: l).getLast? = l.getLast? := by
  cases l with
  | nil => exact absurd rfl h
  | cons b m => exact List.getLast?_cons_cons

theorem translateNewlines_eq_self : ∀ (c : List Char), '\r' ∉ c → translateNewlines c = c := by
  intro c
  induction c using translateNewlines.induct with
  | case1 => intro _; rfl
  | case2 rest ih => intro h; exact absurd (List.mem_cons_self _ _) h
  | case3 rest hne ih => intro h; exact absurd (List.mem_cons_self _ _) h
  | case4 c rest hne hc ih =>
    intro h
    rw [translateNewlines.eq_4 c rest hne hc]
    rw [ih (fun hm => h (List.mem_cons_of_mem _ hm))]

theorem translateNewlines_ne_nil : ∀ (c : List Char), c ≠ [] → translateNewlines c ≠ [] := by
  intro c
  induction c using translateNewlines.induct with
  | case1 => intro h; exact absurd rfl h
  | case2 rest ih => intro _; simp [translateNewlines]
  | case3 rest hne ih => intro _; rw [translateNewlines.eq_3 rest hne]; simp
  | case4 c rest hne hc ih => intro _; rw [translateNewlines.eq_4 c rest hne hc]; simp

theorem getLast?_translateNewlines :
    ∀ (c : List Char), c.getLast? = some '\n' →
      (translateNewlines c).getLast? = some '\n' := by
  intro c
  induction c using translateNewlines.induct with
  | case1 => intro h; simp at h
  | case2 rest ih =>
    intro h
    rw [translateNewlines.eq_2]
    cases hr : rest with
    | nil => subst hr; simp [translateNewlines]
    | cons r rest2 =>
      subst hr
      have h2 : (r :: rest2).getLast? = some '\n' := by
        rw [List.getLast?_cons_cons, List.getLast?_cons_cons] at h
        exact h
      have := ih h2
      rw [getLast?_cons_of_ne_nil _ _ (translateNewlines_ne_nil _ (by simp))]
      exact this
  | case3 rest hne ih =>
    intro h
    rw [translateNewlines.eq_3 rest hne]
    cases hr : rest with
    | nil =>
      subst hr
      simp at h
    | cons r rest2 =>
      subst hr
      have h2 : (r :: rest2).getLast? = some '\n' := by
        rw [List.getLast?_cons_cons] at h
        exact h
      rw [getLast?_cons_of_ne_nil _ _ (translateNewlines_ne_nil _ (by simp))]
      exact ih h2
  | case4 c rest hne hc ih =>
    intro h
    rw [translateNewlines.eq_4 c rest hne hc]
    cases hr : rest with
    | nil =>
      subst hr
      simp at h
      simp [h, translateNewlines]
    | cons r rest2 =>
      subst hr
      have h2 : (r :: rest2).getLast? = some '\n' := by
        rw [List.getLast?_cons_cons] at h
        exact h
      rw [getLast?_cons_of_ne_nil _ _ (translateNewlines_ne_nil _ (by simp))]
      exact ih h2

theorem translateNewlines_append :
    ∀ (a b : List Char), a.getLast? ≠ some '\r' →
      translateNewlines (a ++ b) = translateNewlines a ++ translateNewlines b := by
  intro a
  induction a using translateNewlines.induct with
  | case1 => intro b _; rfl
  | case2 rest ih =>
    intro b h
    have : ('\r' :: '\n' :: rest) ++ b = '\r' :: '\n' :: (rest ++ b) := by simp
    rw [this, translateNewlines.eq_2, translateNewlines.eq_2]
    cases hr : rest with
    | nil => subst hr; simp [translateNewlines]
    | cons r rest2 =>
      subst hr
      have h2 : (r :: rest2).getLast? ≠ some '\r' := by
        rw [List.getLast?_cons_cons, List.getLast?_cons_cons] at h
        exact h
      rw [ih b h2]
      simp
  | case3 rest hne ih =>
    intro b h
    cases hr : rest with
    | nil =>
      subst hr
      simp at h
    | cons r rest2 =>
      subst hr
      have hrn : r ≠ '\n' := fun he => hne rest2 (by rw [he])
      have hne2 : ∀ (r1 : List Char), (r :: rest2) ++ b = '\n' :: r1 → False := by
        intro r1 he
        rw [List.cons_append] at he
        injection he with h1 h2
        exact hrn h1
      have : ('\r' :: r :: rest2) ++ b = '\r' :: ((r :: rest2) ++ b) := by simp
      rw [this, translateNewlines.eq_3 _ hne2, translateNewlines.eq_3 _ hne]
      have h2 : (r :: rest2).getLast? ≠ some '\r' := by
        rw [getLast?_cons_of_ne_nil _ _ (by simp)] at h
        exact h
      rw [ih b h2]
      simp
  | case4 c rest hne hc ih =>
    intro b h
    have hne2 : ∀ (r1 : List Char), c = '\r' → rest ++ b = '\n' :: r1 → False := by
      intro r1 hcc _
      exact hc hcc
    have : (c :: rest) ++ b = c :: (rest ++ b) := by simp
    rw [this, translateNewlines.eq_4 _ _ hne2 hc, translateNewlines.eq_4 _ _ hne hc]
    cases hr : rest with
    | nil => subst hr; simp [translateNewlines]
    | cons r rest2 =>
      subst hr
      have h2 : (r :: rest2).getLast? ≠ some '\r' := by
        rw [getLast?_cons_of_ne_nil _ _ (by simp)] at h
        exact h
      rw [ih b h2]
      simp

theorem splitlines_append_nl :
    ∀ (l rest : List Char), breakFree l = true →
      splitlines (l ++ '\n' :: rest) = l :: splitlines rest := by
  intro l
  induction l with
  | nil =>
    intro rest _
    show splitlines ('\n' :: rest) = [] :: splitlines rest
    rw [splitlines.eq_3 _ _ (fun r1 hc _ => absurd hc (by decide))]
    simp [isLineBreak]
  | cons a l' ih =>
    intro rest hb
    rw [breakFree, List.all_cons] at hb
    obtain ⟨ha, hl'⟩ := Bool.and_eq_true_iff.mp hb
    have ha2 : isLineBreak a = false := by simpa using ha
    have hne : ∀ (r1 : List Char), a = '\r' → l' ++ '\n' :: rest = '\n' :: r1 → False := by
      intro r1 hc _
      rw [hc] at ha2
      exact absurd ha2 (by decide)
    have step : (a :: l') ++ '\n' :: rest = a :: (l' ++ '\n' :: rest) := by simp
    rw [step, splitlines.eq_3 _ _ hne, if_neg (by simp [ha2])]
    rw [ih rest hl']

theorem mem_save_tasks :
    ∀ (ls : List Line) (ch : Char), ch ∈ save_tasks ls → ch = '\n' ∨ ∃ l ∈ ls, ch ∈ l := by
  intro ls
  induction ls with
  | nil => intro ch h; left; simpa [save_tasks] using h
  | cons l ls' ih =>
    cases ls' with
    | nil =>
      intro ch h
      have h0 : ch ∈ l ++ ['\n'] := h
      rcases List.mem_append.mp h0 with h1 | h1
      · exact Or.inr ⟨l, List.mem_cons_self _ _, h1⟩
      · left; simpa using h1
    | cons m ls'' =>
      intro ch h
      have h0 : ch ∈ l ++ '\n' :: save_tasks (m :: ls'') := h
      rcases List.mem_append.mp h0 with h1 | h1
      · exact Or.inr ⟨l, List.mem_cons_self _ _, h1⟩
      · rcases List.mem_cons.mp h1 with h2 | h2
        · exact Or.inl h2
        · rcases ih ch h2 with h3 | ⟨l2, hl2, hcl2⟩
          · exact Or.inl h3
          · exact Or.inr ⟨l2, List.mem_cons_of_mem _ hl2, hcl2⟩

theorem save_tasks_no_cr (ls : List Line) (hb : ∀ l ∈ ls, breakFree l = true) :
    '\r' ∉ save_tasks ls := by
  intro hmem
  rcases mem_save_tasks ls '\r' hmem with h | ⟨l, hl, hcl⟩
  · exact absurd h (by decide)
  · have hbl := hb l hl
    rw [breakFree, List.all_eq_true] at hbl
    have := hbl '\r' hcl
    exact absurd this (by decide)

theorem load_tasks_save_tasks :
    ∀ (ls : List Line), ls ≠ [] → (∀ l ∈ ls, breakFree l = true) →
      load_tasks (save_tasks ls) = ls := by
  intro ls
  induction ls with
  | nil => intro h _; exact absurd rfl h
  | cons l ls' ih =>
    intro _ hb
    have hncr : '\r' ∉ save_tasks (l :: ls') := save_tasks_no_cr _ hb
    unfold load_tasks
    rw [translateNewlines_eq_self _ hncr]
    cases ls' with
    | nil =>
      show splitlines (l ++ '\n' :: []) = [l]
      rw [splitlines_append_nl l [] (hb l (List.mem_cons_self _ _))]
      simp [splitlines]
    | cons m ls'' =>
      show splitlines (l ++ '\n' :: save_tasks (m :: ls'')) = l :: m :: ls''
      rw [splitlines_append_nl l _ (hb l (List.mem_cons_self _ _))]
      congr 1
      have hb2 : ∀ x ∈ m :: ls'', breakFree x = true :=
        fun x hx => hb x (List.mem_cons_of_mem _ hx)
      have h2 := ih (by simp) hb2
      unfold load_tasks at h2
      rwa [translateNewlines_eq_self _ (save_tasks_no_cr _ hb2)] at h2

theorem save_tasks_cons_head (c : Char) (l : List Char) (ls : List (List Char)) :
    save_tasks ((c :: l) :: ls) = c :: save_tasks (l :: ls) := by
  cases ls with
  | nil => simp [save_tasks]
  | cons m ls2 => simp [save_tasks]

theorem ensureTrailingNewline_cons (a : Char) (rest : List Char) (h : rest ≠ []) :
    ensureTrailingNewline (a :: rest) = a :: ensureTrailingNewline rest := by
  unfold ensureTrailingNewline
  rw [getLast?_cons_of_ne_nil a rest h]
  by_cases hg : rest.getLast? = some '\n'
  · rw [if_pos hg, if_pos hg]
  · rw [if_neg hg, if_neg hg]
    simp

theorem save_splitlines_of_only_nl :
    ∀ (c : List Char), (∀ ch ∈ c, isLineBreak ch = true → ch = '\n') →
      save_tasks (splitlines c) = ensureTrailingNewline c := by
  intro c
  induction c using splitlines.induct with
  | case1 => intro _; simp [splitlines, save_tasks, ensureTrailingNewline]
  | case2 rest ih =>
    intro h
    have := h '\r' (List.mem_cons_self _ _) (by decide)
    exact absurd this (by decide)
  | case3 c rest hne hbrk ih =>
    intro h
    have hcn : c = '\n' := h c (List.mem_cons_self _ _) hbrk
    subst hcn
    rw [splitlines.eq_3 _ _ hne, if_pos hbrk]
    cases rest with
    | nil => simp [splitlines, save_tasks, ensureTrailingNewline]
    | cons r rest2 =>
      obtain ⟨l0, ls0, hsp⟩ : ∃ l0 ls0, splitlines (r :: rest2) = l0 :: ls0 := by
        rcases hx : splitlines (r :: rest2) with _ | ⟨l0, ls0⟩
        · exact absurd hx (splitlines_ne_nil _ (by simp))
        · exact ⟨l0, ls0, rfl⟩
      rw [hsp]
      have hsave : save_tasks ([] :: l0 :: ls0) = '\n' :: save_tasks (l0 :: ls0) := by
        simp [save_tasks]
      rw [hsave, ← hsp, ih (fun x hx hbx => h x (List.mem_cons_of_mem _ hx) hbx)]
      rw [ensureTrailingNewline_cons '\n' _ (by simp)]
  | case4 c rest hne hbrk hsp ih =>
    intro h
    have hrest : rest = [] := by
      rcases hr : rest with _ | ⟨a, b⟩
      · rfl
      · rw [hr] at hsp
        exact absurd hsp (splitlines_ne_nil _ (by simp))
    subst hrest
    have h1 : splitlines [c] = [[c]] := by
      rw [splitlines.eq_3 _ _ hne]
      simp [hbrk, splitlines]
    rw [h1]
    have hcn : c ≠ '\n' := fun he => hbrk (by rw [he]; decide)
    simp [save_tasks, ensureTrailingNewline, hcn]
  | case5 c rest hne hbrk l0 ls0 hsp ih =>
    intro h
    have hrne : rest ≠ [] := by
      intro he
      rw [he] at hsp
      simp [splitlines] at hsp
    have h1 : splitlines (c :: rest) = (c :: l0) :: ls0 := by
      rw [splitlines.eq_3 _ _ hne]
      simp [hbrk, hsp]
    rw [h1, save_tasks_cons_head, ← hsp, ih (fun x hx hbx => h x (List.mem_cons_of_mem _ hx) hbx)]
    rw [ensureTrailingNewline_cons c rest hrne]

/-- C5 counterexample: for the readable content "a\r\nb", saving the result
of loading it yields "a\nb\n", which differs from the original by more than
the single trailing-newline normalization, so the round-trip claim fails as
stated. -/
theorem roundtrip_crlf_counterexample :
    save_tasks (load_tasks ['a', '\r', '\n', 'b']) ≠
      ensureTrailingNewline ['a', '\r', '\n', 'b'] := by decide

/-- C5 (amended): for every file content whose line-break characters are all
LF, save_tasks (load_tasks content) reproduces the content byte for byte,
modulo only the single trailing-newline normalization; content holding CR or
other line separators is additionally newline-normalized. -/
theorem roundtrip_save_load (c : Content)
    (h : ∀ ch ∈ c, isLineBreak ch = true → ch = '\n') :
    save_tasks (load_tasks c) = ensureTrailingNewline c := by
  unfold load_tasks
  have hncr : '\r' ∉ c := fun hm => absurd (h '\r' hm (by decide)) (by decide)
  rw [translateNewlines_eq_self c hncr]
  exact save_splitlines_of_only_nl c h

/-- C5 witness: the round-trip theorem applied to a concrete task file that
lacks its final newline. -/
theorem roundtrip_save_load_witness :
    save_tasks (load_tasks ("# Task List\n\n- [ ] a").toList) =
      ensureTrailingNewline ("# Task List\n\n- [ ] a").toList :=
  roundtrip_save_load _ (by decide)

theorem filter_not_filter_nil (p : Line → Bool) (ls : List Line) :
    (ls.filter (fun l => ! p l)).filter p = [] := by
  induction ls with
  | nil => rfl
  | cons l ls' ih =>
    by_cases h : p l
    · simp [List.filter_cons, h, ih]
    · simp [List.filter_cons, h, ih]

/-- C8: clearAll on content with zero task lines reports NoTasks, an
informational outcome, and performs no write, leaving the content unchanged;
on content with task lines it reports the task-line count, writes, and the
resulting file has zero task lines. -/
theorem clear_all_tasks_semantics (c : Content) :
    (((load_tasks c).filter isTaskLine).length = 0 →
        clear_all_tasks c = (.noTasks, c, false)) ∧
    (((load_tasks c).filter isTaskLine).length ≠ 0 →
        (clear_all_tasks c).1 = .clearedAll ((load_tasks c).filter isTaskLine).length ∧
        (clear_all_tasks c).2.2 = true ∧
        ((load_tasks (clear_all_tasks c).2.1).filter isTaskLine).length = 0) := by
  constructor
  · intro h0
    unfold clear_all_tasks runOnContent clear_all_core
    simp [h0]
  · intro hne
    have hcore : clear_all_core (load_tasks c) =
        (.clearedAll ((load_tasks c).filter isTaskLine).length,
         (load_tasks c).filter (fun l => ! isTaskLine l), true) := by
      unfold clear_all_core
      simp [hne]
    unfold clear_all_tasks runOnContent
    rw [hcore]
    refine ⟨rfl, rfl, ?_⟩
    show ((load_tasks (save_tasks
        ((load_tasks c).filter (fun l => ! isTaskLine l)))).filter isTaskLine).length = 0
    rcases hnew : (load_tasks c).filter (fun l => ! isTaskLine l) with _ | ⟨l0, ls0⟩
    · decide
    · have hload : load_tasks (save_tasks (l0 :: ls0)) = l0 :: ls0 := by
        refine load_tasks_save_tasks _ (by simp) ?_
        intro l hl
        have hl2 : l ∈ (load_tasks c).filter (fun l => ! isTaskLine l) := by
          rw [hnew]; exact hl
        exact breakFree_splitlines (translateNewlines c) l (List.mem_of_mem_filter hl2)
      rw [hload, ← hnew, filter_not_filter_nil]
      rfl

/-- C8 witness: the clearAll theorem applied to a concrete empty task set
(NoTasks, no write) and to a concrete one-task file (cleared 1 with a
write). -/
theorem clear_all_tasks_semantics_witness :
    clear_all_tasks ("# Task List\n\n").toList =
      (.noTasks, ("# Task List\n\n").toList, false) ∧
    (clear_all_tasks ("# Task List\n\n- [ ] a\n").toList).1 = .clearedAll 1 :=
  ⟨(clear_all_tasks_semantics _).1 (by decide),
   (((clear_all_tasks_semantics ("# Task List\n\n- [ ] a\n").toList).2
      (by decide)).1).trans (by decide)⟩

theorem length_filter_add_length_filter_not (p : Line → Bool) (ls : List Line) :
    (ls.filter p).length + (ls.filter (fun l => ! p l)).length = ls.length := by
  induction ls with
  | nil => rfl
  | cons l ls' ih =>
    by_cases h : p l
    · simp [List.filter_cons, h]
      omega
    · simp [List.filter_cons, h]
      omega

/-- C2 counterexample: the line "- [X] done" is classified complete by the
specification's case-insensitive invariant, yet clear_done leaves it in
place and reports 0 removed, so the claim fails as stated. -/
theorem clear_done_case_sensitive_counterexample :
    (clear_done_core [("# Task List").toList, [], ("- [X] done").toList]).1 =
      .clearedDone 0 ∧
    (clear_done_core [("# Task List").toList, [], ("- [X] done").toList]).2.1 =
      [("# Task List").toList, [], ("- [X] done").toList] ∧
    specCompleted (("- [X] done").toList) = true := by decide

/-- C2 (amended): clear_done removes exactly the lines that start with the
lowercase marker "- [x]" — a "- [X]" line is not removed — always writes,
reports exactly the number of lines removed (0 is a valid result), and keeps
the remaining lines in order. -/
theorem clear_done_tasks_semantics (ls : List Line) :
    (clear_done_core ls).2.2 = true ∧
    (clear_done_core ls).1 =
      .clearedDone (ls.length - (clear_done_core ls).2.1.length) ∧
    (∀ l ∈ (clear_done_core ls).2.1, doneMark.isPrefixOf l = false) ∧
    (∀ l ∈ ls, doneMark.isPrefixOf l = false → l ∈ (clear_done_core ls).2.1) ∧
    (clear_done_core ls).2.1.Sublist ls := by
  have hcore : clear_done_core ls =
      (.clearedDone (ls.filter (fun l => doneMark.isPrefixOf l)).length,
       ls.filter (fun l => ! doneMark.isPrefixOf l), true) := rfl
  rw [hcore]
  refine ⟨rfl, ?_, ?_, ?_, ?_⟩
  · have hsum : (ls.filter (fun l => doneMark.isPrefixOf l)).length +
        (ls.filter (fun l => ! doneMark.isPrefixOf l)).length = ls.length :=
      length_filter_add_length_filter_not _ ls
    show OpResult.clearedDone (ls.filter (fun l => doneMark.isPrefixOf l)).length =
      OpResult.clearedDone
        (ls.length - (ls.filter (fun l => ! doneMark.isPrefixOf l)).length)
    congr 1
    omega
  · intro l hl
    have := List.of_mem_filter hl
    simpa using this
  · intro l hl hno
    exact List.mem_filter.mpr ⟨hl, by simp [hno]⟩
  · exact List.filter_sublist _

/-- C2 witness: the clear_done theorem applied to a concrete file where one
lowercase-complete task is removed and the other line stays. -/
theorem clear_done_tasks_semantics_witness :
    (clear_done_core [("- [x] a").toList, ("keep").toList]).1 = .clearedDone 1 ∧
    ("keep").toList ∈ (clear_done_core [("- [x] a").toList, ("keep").toList]).2.1 :=
  ⟨((clear_done_tasks_semantics _).2.1).trans (by decide),
   (clear_done_tasks_semantics _).2.2.2.1 ("keep").toList (by decide) (by decide)⟩

/-- C3 counterexample: the confirmation input "Y" is stripped and lowercased
before the comparison with "y", so uppercase Y does confirm the destructive
clear-all and the file is written, contrary to the claim that any input
other than lowercase y cancels without side effects. -/
theorem clearall_uppercase_confirms_counterexample :
    (clearallCommand (some ['Y']) (("# Task List\n\n- [ ] a\n").toList)).2.2 = true ∧
    clearallCommand (some ['Y']) (("# Task List\n\n- [ ] a\n").toList) ≠
      (.cancelled, ("# Task List\n\n- [ ] a\n").toList, false) := by decide

/-- C3 (amended): the confirmation input is stripped and lowercased before
comparison with "y"; any input normalizing to "y" (so also "Y" or " y ")
confirms and runs the destructive clear-all, any other input cancels with no
write and unchanged content, and end-of-input or interrupt likewise
cancels. -/
theorem clearall_confirm_semantics :
    (∀ c : Content, clearallCommand none c = (.cancelled, c, false)) ∧
    (∀ (s : List Char) (c : Content), lowerStr (pyStrip s) ≠ ['y'] →
        clearallCommand (some s) c = (.cancelled, c, false)) ∧
    (∀ (s : List Char) (c : Content), lowerStr (pyStrip s) = ['y'] →
        clearallCommand (some s) c = clear_all_tasks c) := by
  refine ⟨fun c => rfl, ?_, ?_⟩
  · intro s c h
    have hb : shellConfirmClearAll (some s) = false := by
      unfold shellConfirmClearAll
      simp [h]
    unfold clearallCommand
    rw [hb]
    simp
  · intro s c h
    have hb : shellConfirmClearAll (some s) = true := by
      unfold shellConfirmClearAll
      simp [h]
    unfold clearallCommand
    rw [hb]
    simp

/-- C3 witness: the confirmation theorem applied to the refusing input "n"
and the confirming input "y" on concrete contents. -/
theorem clearall_confirm_semantics_witness :
    clearallCommand (some (("n").toList)) (("# Task List\n\n- [ ] a\n").toList) =
      (.cancelled, ("# Task List\n\n- [ ] a\n").toList, false) ∧
    clearallCommand (some (("y").toList)) (("# Task List\n\n").toList) =
      clear_all_tasks (("# Task List\n\n").toList) :=
  ⟨clearall_confirm_semantics.2.1 _ _ (by decide),
   clearall_confirm_semantics.2.2 _ _ (by decide)⟩

theorem isPrefixOf_append_self : ∀ (l t : List Char), l.isPrefixOf (l ++ t) = true := by
  intro l t
  induction l with
  | nil => simp
  | cons a l' ih => simp [List.isPrefixOf, ih]

theorem wordsOf_ws_cons (c : Char) (x : List Char) (h : isPyWs c = true) :
    wordsOf (c :: x) = wordsOf x := by
  cases x with
  | nil => simp [wordsOf, h]
  | cons d rest => simp [wordsOf, h]

theorem wordsOf_all_ws : ∀ (s : List Char), (∀ ch ∈ s, isPyWs ch = true) →
    wordsOf s = [] := by
  intro s
  induction s with
  | nil => intro _; rfl
  | cons c s' ih =>
    intro h
    rw [wordsOf_ws_cons c s' (h c (List.mem_cons_self _ _))]
    exact ih (fun ch hch => h ch (List.mem_cons_of_mem _ hch))

theorem wordsOf_ne_nil_of_head (c : Char) (x : List Char) (h : isPyWs c = false) :
    wordsOf (c :: x) ≠ [] := by
  cases x with
  | nil => simp [wordsOf, h]
  | cons d rest =>
    by_cases hd : isPyWs d
    · simp [wordsOf, h, hd]
    · rcases hw : wordsOf (d :: rest) with _ | ⟨w, ws⟩
      · simp [wordsOf, h, hd, hw]
      · simp [wordsOf, h, hd, hw]

theorem wordsOf_append_ws : ∀ (x s : List Char), (∀ ch ∈ s, isPyWs ch = true) →
    wordsOf (x ++ s) = wordsOf x := by
  intro x
  induction x using wordsOf.induct with
  | case1 =>
    intro s hs
    simpa using wordsOf_all_ws s hs
  | case2 c hc =>
    intro s hs
    show wordsOf (c :: s) = wordsOf [c]
    rw [wordsOf_ws_cons c s hc, wordsOf_all_ws s hs]
    simp [wordsOf, hc]
  | case3 c hc =>
    intro s hs
    have hc' : isPyWs c = false := by simpa using hc
    show wordsOf (c :: s) = wordsOf [c]
    cases s with
    | nil => rfl
    | cons e s' =>
      have he : isPyWs e = true := hs e (List.mem_cons_self _ _)
      rw [wordsOf.eq_3]
      simp only [hc', he, if_false, if_true, Bool.false_eq_true]
      rw [wordsOf_all_ws s' (fun ch hch => hs ch (List.mem_cons_of_mem _ hch))]
      simp [wordsOf, hc']
  | case4 c d rest hc ih =>
    intro s hs
    have step : (c :: d :: rest) ++ s = c :: ((d :: rest) ++ s) := by simp
    rw [step, wordsOf_ws_cons c _ hc, wordsOf_ws_cons c _ hc]
    exact ih s hs
  | case5 c d rest hc hd ih =>
    intro s hs
    have hc' : isPyWs c = false := by simpa using hc
    have step : (c :: d :: rest) ++ s = c :: d :: (rest ++ s) := by simp
    rw [step, wordsOf.eq_3, wordsOf.eq_3]
    simp only [hc', hd, if_false, if_true, Bool.false_eq_true]
    rw [ih s hs]
  | case6 c d rest hc hd hw ih =>
    intro s hs
    exact absurd hw (wordsOf_ne_nil_of_head d rest (by simpa using hd))
  | case7 c d rest hc hd w ws hw ih =>
    intro s hs
    have hc' : isPyWs c = false := by simpa using hc
    have hd' : isPyWs d = false := by simpa using hd
    have step : (c :: d :: rest) ++ s = c :: (d :: (rest ++ s)) := by simp
    rw [step, wordsOf.eq_3, wordsOf.eq_3]
    simp only [hc', hd', if_false, Bool.false_eq_true]
    have hih : wordsOf (d :: (rest ++ s)) = wordsOf (d :: rest) := by
      have h0 := ih s hs
      simpa using h0
    rw [hih, hw]

theorem stripRight_decomp (l : List Char) :
    ∃ s, l = stripRight l ++ s ∧ ∀ ch ∈ s, isPyWs ch = true := by
  refine ⟨(l.reverse.takeWhile isPyWs).reverse, ?_, ?_⟩
  · unfold stripRight
    calc l = l.reverse.reverse := (List.reverse_reverse l).symm
    _ = (l.reverse.takeWhile isPyWs ++ l.reverse.dropWhile isPyWs).reverse := by
        rw [List.takeWhile_append_dropWhile]
    _ = (l.reverse.dropWhile isPyWs).reverse ++ (l.reverse.takeWhile isPyWs).reverse := by
        rw [List.reverse_append]
  · intro ch hch
    exact List.mem_takeWhile_imp (List.mem_reverse.mp hch)

theorem dropWhile_ne_nil_of_ex (p : Char → Bool) (l : List Char)
    (h : ∃ x ∈ l, p x = false) : l.dropWhile p ≠ [] := by
  intro hnil
  obtain ⟨x, hx, hpx⟩ := h
  have := List.dropWhile_eq_nil_iff.mp hnil x hx
  rw [hpx] at this
  exact absurd this (by decide)

theorem stripRight_append_front (a rest : List Char)
    (h : ∃ ch ∈ rest, isPyWs ch = false) :
    stripRight (a ++ rest) = a ++ stripRight rest := by
  unfold stripRight
  rw [List.reverse_append, List.dropWhile_append]
  have hne : rest.reverse.dropWhile isPyWs ≠ [] :=
    dropWhile_ne_nil_of_ex isPyWs rest.reverse
      (by obtain ⟨x, hx, hpx⟩ := h; exact ⟨x, List.mem_reverse.mpr hx, hpx⟩)
  rw [if_neg (by simpa [List.isEmpty_iff] using hne)]
  rw [List.reverse_append, List.reverse_reverse]

theorem isPyWs_lowerChar (c : Char) (h : isPyWs c = true) : lowerChar c = c := by
  have hlt : c.toNat < 65 := by
    simp only [isPyWs, Bool.or_eq_true, decide_eq_true_eq] at h
    rcases h with (((((h | h) | h) | h) | h) | h) <;> subst h <;> decide
  unfold lowerChar
  rw [if_neg (fun hr => absurd hr.1 (by omega))]

theorem lowerStr_all_ws (s : List Char) (h : ∀ ch ∈ s, isPyWs ch = true) :
    ∀ ch ∈ lowerStr s, isPyWs ch = true := by
  intro ch hch
  obtain ⟨c0, hc0, hmap⟩ := List.mem_map.mp hch
  rw [← hmap, isPyWs_lowerChar c0 (h c0 hc0)]
  exact h c0 hc0

theorem words_add_front (x : List Char) :
    wordsOf (['a', 'd', 'd', ' '] ++ x) = ['a', 'd', 'd'] :: wordsOf x := by
  have h1 : wordsOf ('d' :: ' ' :: x) = ['d'] :: wordsOf x := by
    rw [wordsOf.eq_3]
    simp [isPyWs]
  have h2 : wordsOf ('d' :: 'd' :: ' ' :: x) = ['d', 'd'] :: wordsOf x := by
    rw [wordsOf.eq_3]
    simp only [show isPyWs 'd' = false from by decide, if_false, Bool.false_eq_true, h1]
  have h3 : wordsOf ('a' :: 'd' :: 'd' :: ' ' :: x) = ['a', 'd', 'd'] :: wordsOf x := by
    rw [wordsOf.eq_3]
    simp only [show isPyWs 'a' = false from by decide,
      show isPyWs 'd' = false from by decide, if_false, Bool.false_eq_true, h2]
  exact h3

/-- C4 counterexample: for the interactive input line "add Buy Milk", the
shell passes "buy milk" to the add operation, so the letter case of the
entered text is not preserved in the stored task. -/
theorem shell_add_case_counterexample :
    shellAddText (("add Buy Milk").toList) = some (("buy milk").toList) ∧
    ("buy milk").toList ≠ ("Buy Milk").toList := by decide

/-- C4 (amended): for every interactive input line of the form add rest (with
some non-whitespace in rest), the shell invokes the add operation with the
rest of the line whitespace-normalized AND lowercased: the text handed over
is the space-join of the whitespace-separated words of lowercase(rest). -/
theorem shell_add_lowercases (rest : List Char)
    (hx : ∃ ch ∈ rest, isPyWs ch = false) :
    shellAddText ('a' :: 'd' :: 'd' :: ' ' :: rest) =
      some (spaceJoin (wordsOf (lowerStr rest))) := by
  have hstrip : pyStrip ('a' :: 'd' :: 'd' :: ' ' :: rest) =
      'a' :: 'd' :: 'd' :: ' ' :: stripRight rest := by
    unfold pyStrip
    have hsl : stripLeft ('a' :: 'd' :: 'd' :: ' ' :: rest) =
        'a' :: 'd' :: 'd' :: ' ' :: rest := by
      unfold stripLeft
      rw [List.dropWhile_cons]
      simp [isPyWs]
    rw [hsl]
    have hsplit : ('a' :: 'd' :: 'd' :: ' ' :: rest) = ['a', 'd', 'd', ' '] ++ rest := rfl
    rw [hsplit, stripRight_append_front _ _ hx]
    rfl
  have hnorm : shellNormalize ('a' :: 'd' :: 'd' :: ' ' :: rest) =
      ['a', 'd', 'd', ' '] ++ lowerStr (stripRight rest) := by
    unfold shellNormalize
    rw [hstrip]
    show lowerStr (['a', 'd', 'd', ' '] ++ stripRight rest) = _
    unfold lowerStr
    rw [List.map_append]
    congr 1
  have happ : shellAddText ('a' :: 'd' :: 'd' :: ' ' :: rest) =
      if (['a', 'd', 'd', ' ']).isPrefixOf
          (shellNormalize ('a' :: 'd' :: 'd' :: ' ' :: rest)) then
        some (spaceJoin
          ((wordsOf (shellNormalize ('a' :: 'd' :: 'd' :: ' ' :: rest))).drop 1))
      else none := rfl
  rw [happ, hnorm, if_pos (isPrefixOf_append_self _ _), words_add_front]
  obtain ⟨s, hdecomp, hws⟩ := stripRight_decomp rest
  have hlow : lowerStr rest = lowerStr (stripRight rest) ++ lowerStr s := by
    conv_lhs => rw [hdecomp]
    unfold lowerStr
    exact List.map_append _ _ _
  rw [hlow, wordsOf_append_ws _ _ (lowerStr_all_ws s hws)]
  rfl

/-- C4 witness: the amended add-dispatch theorem applied to the concrete
rest-of-line "Buy  Milk ". -/
theorem shell_add_lowercases_witness :
    shellAddText ('a' :: 'd' :: 'd' :: ' ' :: ("Buy  Milk ").toList) =
      some (spaceJoin (wordsOf (lowerStr (("Buy  Milk ").toList)))) :=
  shell_add_lowercases _ (by decide)

theorem taskIndicesFrom_shift : ∀ (ls : List Line) (s : Nat),
    taskIndicesFrom s ls = (taskIndices ls).map (fun k => k + s) := by
  intro ls
  induction ls with
  | nil => intro s; rfl
  | cons l rest ih =>
    intro s
    unfold taskIndices
    by_cases h : isTaskLine l
    · simp only [taskIndicesFrom, h, if_true]
      rw [ih (s + 1), ih 1]
      unfold taskIndices
      simp only [List.map_cons, List.map_map]
      have hfun : (fun k => k + (s + 1)) =
          ((fun k => k + s) ∘ (fun k : Nat => k + 1)) := by
        funext k
        simp [Function.comp]
        omega
      rw [hfun]
      congr 1
      omega
    · simp only [taskIndicesFrom, h, if_false, Bool.false_eq_true]
      rw [ih (s + 1), ih 1]
      unfold taskIndices
      simp only [List.map_map]
      have hfun : (fun k => k + (s + 1)) =
          ((fun k => k + s) ∘ (fun k : Nat => k + 1)) := by
        funext k
        simp [Function.comp]
        omega
      rw [hfun]

theorem length_taskIndicesFrom : ∀ (ls : List Line) (s : Nat),
    (taskIndicesFrom s ls).length = (tasksOf ls).length := by
  intro ls
  induction ls with
  | nil => intro s; rfl
  | cons l rest ih =>
    intro s
    by_cases h : isTaskLine l <;>
      simp [taskIndicesFrom, tasksOf, List.filter_cons, h, ih]

theorem length_taskIndices (ls : List Line) :
    (taskIndices ls).length = (tasksOf ls).length :=
  length_taskIndicesFrom ls 0

theorem getD_map_nat (f : Nat → Nat) (t : List Nat) (k : Nat) (hk : k < t.length) :
    (t.map f).getD k 0 = f (t.getD k 0) := by
  rw [List.getD_eq_getElem?_getD, List.getD_eq_getElem?_getD, List.getElem?_map,
    List.getElem?_eq_getElem hk]
  simp

theorem taskIndices_getD_spec : ∀ (ls : List Line) (k : Nat),
    k < (tasksOf ls).length →
    ((taskIndices ls).getD k 0 < ls.length ∧
     ls.getD ((taskIndices ls).getD k 0) [] = (tasksOf ls).getD k []) := by
  intro ls
  induction ls with
  | nil => intro k hk; simp [tasksOf] at hk
  | cons l rest ih =>
    intro k hk
    by_cases h : isTaskLine l
    · have ht : taskIndices (l :: rest) = 0 :: taskIndicesFrom 1 rest := by
        simp [taskIndices, taskIndicesFrom, h]
      have htf : tasksOf (l :: rest) = l :: tasksOf rest := by
        simp [tasksOf, List.filter_cons, h]
      cases k with
      | zero =>
        rw [ht, htf]
        exact ⟨by simp, by simp⟩
      | succ k' =>
        rw [htf] at hk
        have hk' : k' < (tasksOf rest).length := by simpa using hk
        obtain ⟨ihl, ihg⟩ := ih k' hk'
        have hklen : k' < (taskIndices rest).length := by
          rw [length_taskIndices]
          exact hk'
        have hgd : (taskIndicesFrom 1 rest).getD k' 0 =
            (taskIndices rest).getD k' 0 + 1 := by
          rw [taskIndicesFrom_shift rest 1, getD_map_nat _ _ _ hklen]
        rw [ht, htf]
        simp only [List.getD_cons_succ, hgd]
        constructor
        · simpa using Nat.succ_lt_succ ihl
        · exact ihg
    · have ht : taskIndices (l :: rest) = taskIndicesFrom 1 rest := by
        simp [taskIndices, taskIndicesFrom, h]
      have htf : tasksOf (l :: rest) = tasksOf rest := by
        simp [tasksOf, List.filter_cons, h]
      rw [htf] at hk
      obtain ⟨ihl, ihg⟩ := ih k hk
      have hklen : k < (taskIndices rest).length := by
        rw [length_taskIndices]
        exact hk
      have hgd : (taskIndicesFrom 1 rest).getD k 0 =
          (taskIndices rest).getD k 0 + 1 := by
        rw [taskIndicesFrom_shift rest 1, getD_map_nat _ _ _ hklen]
      rw [ht, htf]
      rw [hgd]
      constructor
      · simpa using Nat.succ_lt_succ ihl
      · rw [List.getD_cons_succ]
        exact ihg

theorem taskIndices_set_spec : ∀ (ls : List Line) (k : Nat) (v : Line),
    k < (tasksOf ls).length → isTaskLine v = true →
    (tasksOf (ls.set ((taskIndices ls).getD k 0) v) = (tasksOf ls).set k v ∧
     nonTasksOf (ls.set ((taskIndices ls).getD k 0) v) = nonTasksOf ls) := by
  intro ls
  induction ls with
  | nil => intro k v hk _; simp [tasksOf] at hk
  | cons l rest ih =>
    intro k v hk hv
    by_cases h : isTaskLine l
    · have ht : taskIndices (l :: rest) = 0 :: taskIndicesFrom 1 rest := by
        simp [taskIndices, taskIndicesFrom, h]
      have htf : tasksOf (l :: rest) = l :: tasksOf rest := by
        simp [tasksOf, List.filter_cons, h]
      cases k with
      | zero =>
        rw [ht, htf]
        simp only [List.getD_cons_zero, List.set_cons_zero]
        constructor
        · simp [tasksOf, List.filter_cons, hv]
        · simp [nonTasksOf, List.filter_cons, hv, h]
      | succ k' =>
        rw [htf] at hk
        have hk' : k' < (tasksOf rest).length := by simpa using hk
        have hklen : k' < (taskIndices rest).length := by
          rw [length_taskIndices]; exact hk'
        have hgd : (taskIndicesFrom 1 rest).getD k' 0 =
            (taskIndices rest).getD k' 0 + 1 := by
          rw [taskIndicesFrom_shift rest 1, getD_map_nat _ _ _ hklen]
        obtain ⟨ih1, ih2⟩ := ih k' v hk' hv
        rw [ht, htf]
        simp only [List.getD_cons_succ, hgd, List.set_cons_succ]
        constructor
        · simp [tasksOf, List.filter_cons, h] at ih1 ⊢
          rw [ih1]
        · simp [nonTasksOf, List.filter_cons, h] at ih2 ⊢
          rw [ih2]
    · have ht : taskIndices (l :: rest) = taskIndicesFrom 1 rest := by
        simp [taskIndices, taskIndicesFrom, h]
      have htf : tasksOf (l :: rest) = tasksOf rest := by
        simp [tasksOf, List.filter_cons, h]
      rw [htf] at hk
      have hklen : k < (taskIndices rest).length := by
        rw [length_taskIndices]; exact hk
      have hgd : (taskIndicesFrom 1 rest).getD k 0 =
          (taskIndices rest).getD k 0 + 1 := by
        rw [taskIndicesFrom_shift rest 1, getD_map_nat _ _ _ hklen]
      obtain ⟨ih1, ih2⟩ := ih k v hk hv
      rw [ht, htf, hgd]
      simp only [List.set_cons_succ]
      constructor
      · simp only [tasksOf, List.filter_cons, h, Bool.false_eq_true, if_false] at ih1 ⊢
        rw [ih1]
      · simp only [nonTasksOf, List.filter_cons, h] at ih2 ⊢
        simp only [ih2]

theorem taskIndices_erase_spec : ∀ (ls : List Line) (k : Nat),
    k < (tasksOf ls).length →
    (tasksOf (ls.eraseIdx ((taskIndices ls).getD k 0)) = (tasksOf ls).eraseIdx k ∧
     nonTasksOf (ls.eraseIdx ((taskIndices ls).getD k 0)) = nonTasksOf ls ∧
     (ls.eraseIdx ((taskIndices ls).getD k 0)).length + 1 = ls.length) := by
  intro ls
  induction ls with
  | nil => intro k hk; simp [tasksOf] at hk
  | cons l rest ih =>
    intro k hk
    by_cases h : isTaskLine l
    · have ht : taskIndices (l :: rest) = 0 :: taskIndicesFrom 1 rest := by
        simp [taskIndices, taskIndicesFrom, h]
      have htf : tasksOf (l :: rest) = l :: tasksOf rest := by
        simp [tasksOf, List.filter_cons, h]
      cases k with
      | zero =>
        rw [ht, htf]
        simp only [List.getD_cons_zero, List.eraseIdx_cons_zero]
        refine ⟨by simp, ?_, by simp⟩
        simp [nonTasksOf, List.filter_cons, h]
      | succ k' =>
        rw [htf] at hk
        have hk' : k' < (tasksOf rest).length := by simpa using hk
        have hklen : k' < (taskIndices rest).length := by
          rw [length_taskIndices]; exact hk'
        have hgd : (taskIndicesFrom 1 rest).getD k' 0 =
            (taskIndices rest).getD k' 0 + 1 := by
          rw [taskIndicesFrom_shift rest 1, getD_map_nat _ _ _ hklen]
        obtain ⟨ih1, ih2, ih3⟩ := ih k' hk'
        rw [ht, htf]
        simp only [List.getD_cons_succ, hgd, List.eraseIdx_cons_succ]
        refine ⟨?_, ?_, by simpa using ih3⟩
        · simp only [tasksOf, List.filter_cons, h, if_true] at ih1 ⊢
          rw [ih1]
        · simp only [nonTasksOf, List.filter_cons, h] at ih2 ⊢
          simp only [ih2]
    · have ht : taskIndices (l :: rest) = taskIndicesFrom 1 rest := by
        simp [taskIndices, taskIndicesFrom, h]
      have htf : tasksOf (l :: rest) = tasksOf rest := by
        simp [tasksOf, List.filter_cons, h]
      rw [htf] at hk
      have hklen : k < (taskIndices rest).length := by
        rw [length_taskIndices]; exact hk
      have hgd : (taskIndicesFrom 1 rest).getD k 0 =
          (taskIndices rest).getD k 0 + 1 := by
        rw [taskIndicesFrom_shift rest 1, getD_map_nat _ _ _ hklen]
      obtain ⟨ih1, ih2, ih3⟩ := ih k hk
      rw [ht, htf, hgd]
      simp only [List.eraseIdx_cons_succ]
      refine ⟨?_, ?_, by simpa using ih3⟩
      · simp only [tasksOf, List.filter_cons, h, Bool.false_eq_true, if_false] at ih1 ⊢
        rw [ih1]
      · simp only [nonTasksOf, List.filter_cons, h] at ih2 ⊢
        simp only [ih2]

theorem taskIndicesFrom_set_same : ∀ (ls : List Line) (j : Nat) (v : Line) (s : Nat),
    isTaskLine v = isTaskLine (ls.getD j []) →
    taskIndicesFrom s (ls.set j v) = taskIndicesFrom s ls := by
  intro ls
  induction ls with
  | nil => intro j v s _; rfl
  | cons l rest ih =>
    intro j v s h
    cases j with
    | zero =>
      rw [List.getD_cons_zero] at h
      rw [List.set_cons_zero]
      simp only [taskIndicesFrom, h]
    | succ j' =>
      rw [List.getD_cons_succ] at h
      rw [List.set_cons_succ]
      simp only [taskIndicesFrom]
      rw [ih j' v (s + 1) h]

theorem set_getD_self : ∀ (ls : List Line) (j : Nat), j < ls.length →
    ls.set j (ls.getD j []) = ls := by
  intro ls
  induction ls with
  | nil => intro j hj; simp at hj
  | cons l rest ih =>
    intro j hj
    cases j with
    | zero => rw [List.getD_cons_zero, List.set_cons_zero]
    | succ j' =>
      rw [List.getD_cons_succ, List.set_cons_succ]
      rw [ih j' (by simpa using hj)]

theorem containsSub_cons (pat : List Char) (c : Char) (rest : List Char) :
    containsSub pat (c :: rest) =
      (pat.isPrefixOf (c :: rest) || containsSub pat rest) := rfl

theorem replaceFirstBox_eq_self : ∀ (l : List Char), hasOpenBox l = false →
    replaceFirstBox l = l := by
  intro l
  induction l using replaceFirstBox.induct with
  | case1 rest =>
    intro h
    exfalso
    have hb : hasOpenBox ('[' :: ' ' :: ']' :: rest) = true := by
      unfold hasOpenBox
      rw [containsSub_cons]
      simp [List.isPrefixOf]
    rw [hb] at h
    exact absurd h (by decide)
  | case2 c rest hne ih =>
    intro h
    rw [replaceFirstBox.eq_2 c rest hne]
    have hrest : hasOpenBox rest = false := by
      unfold hasOpenBox at h ⊢
      rw [containsSub_cons] at h
      exact (Bool.or_eq_false_iff.mp h).2
    rw [ih hrest]
  | case3 => intro _; rfl

theorem containsXLower_replaceFirstBox : ∀ (l : List Char), hasOpenBox l = true →
    containsXLower (replaceFirstBox l) = true := by
  intro l
  induction l using replaceFirstBox.induct with
  | case1 rest =>
    intro _
    show containsXLower ('[' :: 'x' :: ']' :: rest) = true
    unfold containsXLower lowerStr
    simp only [List.map_cons]
    rw [containsSub_cons]
    have hpfx : (['[', 'x', ']']).isPrefixOf
        (lowerChar '[' :: lowerChar 'x' :: lowerChar ']' :: rest.map lowerChar) = true := by
      have h1 : lowerChar '[' = '[' := by decide
      have h2 : lowerChar 'x' = 'x' := by decide
      have h3 : lowerChar ']' = ']' := by decide
      rw [h1, h2, h3]
      simp [List.isPrefixOf]
    simp [hpfx]
  | case2 c rest hne ih =>
    intro h
    rw [replaceFirstBox.eq_2 c rest hne]
    have hrest : hasOpenBox rest = true := by
      unfold hasOpenBox at h
      rw [containsSub_cons] at h
      rcases Bool.or_eq_true_iff.mp h with hp | hc
      · exfalso
        cases rest with
        | nil => simp [List.isPrefixOf] at hp
        | cons d rest2 =>
          cases rest2 with
          | nil => simp [List.isPrefixOf] at hp
          | cons e rest3 =>
            simp only [List.isPrefixOf, Bool.and_eq_true, beq_iff_eq,
              List.isPrefixOf_nil_left] at hp
            obtain ⟨hc1, hd1, he1, _⟩ := hp
            exact hne rest3 hc1.symm (by rw [← hd1, ← he1])
      · exact hc
    have hih := ih hrest
    show containsXLower (c :: replaceFirstBox rest) = true
    unfold containsXLower lowerStr at hih ⊢
    simp only [List.map_cons]
    rw [containsSub_cons]
    simp [hih]
  | case3 =>
    intro h
    simp [hasOpenBox, containsSub] at h

theorem replaceFirstBox_open_head : ∀ (r : List Char),
    ∃ r2, replaceFirstBox ('[' :: r) = '[' :: r2 := by
  intro r
  cases r with
  | nil =>
    refine ⟨replaceFirstBox [], ?_⟩
    exact replaceFirstBox.eq_2 _ _ (fun r1 _ hr => by simp at hr)
  | cons d r' =>
    by_cases hd : d = ' '
    · subst hd
      cases r' with
      | nil =>
        refine ⟨replaceFirstBox [' '], ?_⟩
        exact replaceFirstBox.eq_2 _ _ (fun r1 _ hr => by simp at hr)
      | cons e r'' =>
        by_cases he : e = ']'
        · subst he
          exact ⟨'x' :: ']' :: r'', rfl⟩
        · refine ⟨replaceFirstBox (' ' :: e :: r''), ?_⟩
          refine replaceFirstBox.eq_2 _ _ (fun r1 _ hr => ?_)
          injection hr with _ hr2
          injection hr2 with he2 _
          exact he he2
    · refine ⟨replaceFirstBox (d :: r'), ?_⟩
      refine replaceFirstBox.eq_2 _ _ (fun r1 _ hr => ?_)
      injection hr with hd2 _
      exact hd hd2

theorem isTaskLine_replaceFirstBox : ∀ (l : List Char), isTaskLine l = true →
    isTaskLine (replaceFirstBox l) = true := by
  intro l h
  unfold isTaskLine taskMark at h
  cases l with
  | nil => simp [List.isPrefixOf] at h
  | cons a l1 =>
    cases l1 with
    | nil => simp [List.isPrefixOf] at h
    | cons b l2 =>
      cases l2 with
      | nil => simp [List.isPrefixOf] at h
      | cons e r =>
        simp only [List.isPrefixOf, Bool.and_eq_true, beq_iff_eq,
          List.isPrefixOf_nil_left] at h
        obtain ⟨ha, hb, he, _⟩ := h
        subst ha
        subst hb
        subst he
        have h1 : replaceFirstBox ('-' :: ' ' :: '[' :: r) =
            '-' :: replaceFirstBox (' ' :: '[' :: r) :=
          replaceFirstBox.eq_2 _ _ (fun r1 hc _ => absurd hc (by decide))
        have h2 : replaceFirstBox (' ' :: '[' :: r) =
            ' ' :: replaceFirstBox ('[' :: r) :=
          replaceFirstBox.eq_2 _ _ (fun r1 hc _ => absurd hc (by decide))
        obtain ⟨r2, h3⟩ := replaceFirstBox_open_head r
        rw [h1, h2, h3]
        simp [isTaskLine, taskMark, List.isPrefixOf]

theorem splitlines_single_nl : splitlines ['\n'] = [[]] := by decide

theorem splitlines_newline_boundary : ∀ (x s : List Char),
    splitlines (x ++ '\n' :: s) = splitlines (x ++ ['\n']) ++ splitlines s := by
  intro x
  induction x using splitlines.induct with
  | case1 =>
    intro s
    show splitlines ('\n' :: s) = splitlines ['\n'] ++ splitlines s
    rw [splitlines_single_nl, splitlines.eq_3 _ _ (fun r1 hc _ => absurd hc (by decide))]
    simp [isLineBreak]
  | case2 rest ih =>
    intro s
    have hl : ('\r' :: '\n' :: rest) ++ '\n' :: s = '\r' :: '\n' :: (rest ++ '\n' :: s) := by
      simp
    have hr : ('\r' :: '\n' :: rest) ++ ['\n'] = '\r' :: '\n' :: (rest ++ ['\n']) := by
      simp
    rw [hl, hr, splitlines.eq_2, splitlines.eq_2, ih s]
    simp
  | case3 c rest hne hbrk ih =>
    intro s
    cases rest with
    | nil =>
      by_cases hc : c = '\r'
      · subst hc
        show splitlines ('\r' :: '\n' :: s) = splitlines ['\r', '\n'] ++ splitlines s
        rw [splitlines.eq_2]
        have h2 : splitlines ['\r', '\n'] = [[]] := by decide
        rw [h2]
        rfl
      · show splitlines (c :: '\n' :: s) = splitlines [c, '\n'] ++ splitlines s
        have hne2 : ∀ (r1 : List Char), c = '\r' → ('\n' :: s) = '\n' :: r1 → False :=
          fun r1 hcc _ => hc hcc
        have hne3 : ∀ (r1 : List Char), c = '\r' → (['\n'] : List Char) = '\n' :: r1 → False :=
          fun r1 hcc _ => hc hcc
        rw [splitlines.eq_3 _ _ hne2, splitlines.eq_3 _ _ hne3, if_pos hbrk, if_pos hbrk]
        rw [splitlines.eq_3 _ _ (fun r1 hcc _ => absurd hcc (by decide))]
        simp [isLineBreak, splitlines]
    | cons r0 rest' =>
      have hcr : c = '\r' → r0 ≠ '\n' := fun hc hr => hne rest' hc (by rw [hr])
      have hne2 : ∀ (r1 : List Char), c = '\r' →
          (r0 :: rest') ++ '\n' :: s = '\n' :: r1 → False := by
        intro r1 hcc he
        rw [List.cons_append] at he
        injection he with h1 _
        exact hcr hcc h1
      have hne3 : ∀ (r1 : List Char), c = '\r' →
          (r0 :: rest') ++ ['\n'] = '\n' :: r1 → False := by
        intro r1 hcc he
        rw [List.cons_append] at he
        injection he with h1 _
        exact hcr hcc h1
      have hl : (c :: r0 :: rest') ++ '\n' :: s = c :: ((r0 :: rest') ++ '\n' :: s) := by
        simp
      have hr : (c :: r0 :: rest') ++ ['\n'] = c :: ((r0 :: rest') ++ ['\n']) := by
        simp
      rw [hl, hr, splitlines.eq_3 _ _ hne2, splitlines.eq_3 _ _ hne3,
        if_pos hbrk, if_pos hbrk, ih s]
      simp
  | case4 c rest hne hbrk hsp ih =>
    intro s
    have hrest : rest = [] := by
      rcases hx : rest with _ | ⟨a, b⟩
      · rfl
      · rw [hx] at hsp
        exact absurd hsp (splitlines_ne_nil _ (by simp))
    subst hrest
    have hcnr : c ≠ '\r' := by
      intro hc
      rw [hc] at hbrk
      exact hbrk (by decide)
    show splitlines (c :: '\n' :: s) = splitlines [c, '\n'] ++ splitlines s
    have hne2 : ∀ (r1 : List Char), c = '\r' → ('\n' :: s) = '\n' :: r1 → False :=
      fun r1 hcc _ => hcnr hcc
    have hne3 : ∀ (r1 : List Char), c = '\r' → (['\n'] : List Char) = '\n' :: r1 → False :=
      fun r1 hcc _ => hcnr hcc
    rw [splitlines.eq_3 _ _ hne2, splitlines.eq_3 _ _ hne3, if_neg hbrk, if_neg hbrk]
    have h1 : splitlines ('\n' :: s) = [] :: splitlines s := by
      rw [splitlines.eq_3 _ _ (fun r1 hcc _ => absurd hcc (by decide))]
      simp [isLineBreak]
    rw [h1, splitlines_single_nl]
    rfl
  | case5 c rest hne hbrk l0 ls0 hsp ih =>
    intro s
    have hrne : rest ≠ [] := by
      intro he
      rw [he] at hsp
      simp [splitlines] at hsp
    have hcnr : c ≠ '\r' := by
      intro hc
      rw [hc] at hbrk
      exact hbrk (by decide)
    have hne2 : ∀ (r1 : List Char), c = '\r' → rest ++ '\n' :: s = '\n' :: r1 → False :=
      fun r1 hcc _ => hcnr hcc
    have hne3 : ∀ (r1 : List Char), c = '\r' → rest ++ ['\n'] = '\n' :: r1 → False :=
      fun r1 hcc _ => hcnr hcc
    have hl : (c :: rest) ++ '\n' :: s = c :: (rest ++ '\n' :: s) := by simp
    have hr : (c :: rest) ++ ['\n'] = c :: (rest ++ ['\n']) := by simp
    rw [hl, hr, splitlines.eq_3 _ _ hne2, splitlines.eq_3 _ _ hne3,
      if_neg hbrk, if_neg hbrk, ih s]
    obtain ⟨m0, ms, hm⟩ : ∃ m0 ms, splitlines (rest ++ ['\n']) = m0 :: ms := by
      rcases hx : splitlines (rest ++ ['\n']) with _ | ⟨m0, ms⟩
      · exact absurd hx (splitlines_ne_nil _ (by simp))
      · exact ⟨m0, ms, rfl⟩
    rw [hm]
    rfl

theorem getD_set_self_val : ∀ (ls : List Line) (j : Nat) (v : Line), j < ls.length →
    (ls.set j v).getD j [] = v := by
  intro ls
  induction ls with
  | nil => intro j v hj; simp at hj
  | cons l rest ih =>
    intro j v hj
    cases j with
    | zero => rw [List.set_cons_zero, List.getD_cons_zero]
    | succ j' =>
      rw [List.set_cons_succ, List.getD_cons_succ]
      exact ih j' v (by simpa using hj)

theorem breakFree_replaceFirstBox : ∀ (l : List Char), breakFree l = true →
    breakFree (replaceFirstBox l) = true := by
  intro l
  induction l using replaceFirstBox.induct with
  | case1 rest =>
    intro h
    rw [breakFree, List.all_eq_true] at h ⊢
    intro ch hch
    rcases List.mem_cons.mp hch with h1 | h1
    · subst h1; decide
    rcases List.mem_cons.mp h1 with h2 | h2
    · subst h2; decide
    rcases List.mem_cons.mp h2 with h3 | h3
    · subst h3; decide
    · exact h ch (by simp [h3])
  | case2 c rest hne ih =>
    intro h
    rw [replaceFirstBox.eq_2 c rest hne]
    rw [breakFree, List.all_cons] at h ⊢
    obtain ⟨h1, h2⟩ := Bool.and_eq_true_iff.mp h
    have h3 : breakFree rest = true := h2
    have h4 := ih h3
    rw [breakFree] at h4
    rw [h1, h4]
    rfl
  | case3 => intro h; exact h

theorem tasksOf_getD_mem (ls : List Line) (k : Nat) (hk : k < (tasksOf ls).length) :
    (tasksOf ls).getD k [] ∈ tasksOf ls := by
  rw [List.getD_eq_getElem?_getD, List.getElem?_eq_getElem hk]
  exact List.getElem_mem hk

theorem tasksOf_getD_isTaskLine (ls : List Line) (k : Nat)
    (hk : k < (tasksOf ls).length) :
    isTaskLine ((tasksOf ls).getD k []) = true :=
  List.of_mem_filter (tasksOf_getD_mem ls k hk)

theorem check_core_in_range_eq (ls : List Line) (i : Nat)
    (h1 : 1 ≤ i) (h2 : i - 1 < (tasksOf ls).length) :
    check_core i ls =
      (if containsXLower (ls.getD ((taskIndices ls).getD (i - 1) 0) []) = true then
        (.alreadyComplete, ls, false)
      else (.checked i, ls.set ((taskIndices ls).getD (i - 1) 0)
        (replaceFirstBox (ls.getD ((taskIndices ls).getD (i - 1) 0) [])), true)) := by
  unfold check_core
  rw [if_neg (by rw [length_taskIndices]; omega)]

theorem delete_core_in_range_eq (ls : List Line) (i : Nat)
    (h1 : 1 ≤ i) (h2 : i - 1 < (tasksOf ls).length) :
    delete_core i ls =
      (.deleted (stripMarkers (ls.getD ((taskIndices ls).getD (i - 1) 0) [])),
       ls.eraseIdx ((taskIndices ls).getD (i - 1) 0), true) := by
  unfold delete_core
  rw [if_neg (by rw [length_taskIndices]; omega)]

theorem mem_stripRight (l : List Char) (x : Char) (hx : x ∈ stripRight l) : x ∈ l := by
  unfold stripRight at hx
  rw [List.mem_reverse] at hx
  have := (List.dropWhile_sublist isPyWs).subset hx
  rwa [List.mem_reverse] at this

theorem mem_pyStrip (l : List Char) (x : Char) (hx : x ∈ pyStrip l) : x ∈ l := by
  unfold pyStrip stripLeft at hx
  have h1 := mem_stripRight _ _ hx
  exact (List.dropWhile_sublist isPyWs).subset h1

theorem doneMark_isTaskLine (l : Line) (h : doneMark.isPrefixOf l = true) :
    isTaskLine l = true := by
  rw [ List.isPrefixOf_iff_prefix] at h
  have h2 : taskMark <+: doneMark := by decide
  unfold isTaskLine
  rw [ List.isPrefixOf_iff_prefix]
  exact h2.trans h

/-- C1 counterexample: the rank-1 task "- [ ] see [x] marker" is incomplete
by the specification's bracket-character notion, yet check reports
AlreadyComplete (no save), because the code tests for the substring "[x]"
anywhere in the lowercased line; the claim that such a task must be
checkable fails. -/
theorem check_substring_overrides_bracket :
    specCompleted (("- [ ] see [x] marker").toList) = false ∧
    (tasksOf [("# Task List").toList, [], ("- [ ] see [x] marker").toList]).getD 0 [] =
      ("- [ ] see [x] marker").toList ∧
    check_core 1 [("# Task List").toList, [], ("- [ ] see [x] marker").toList] =
      (.alreadyComplete,
       [("# Task List").toList, [], ("- [ ] see [x] marker").toList], false) := by
  decide

/-- C1 (amended): for every file state and every index in [1, task_count],
check fails with AlreadyComplete exactly when the lowercased target task
line contains the substring "[x]" anywhere (so an incomplete task whose
description text contains "[x]" is reported AlreadyComplete and is not
checkable); when that test fails, check reports success, replaces the first
"[ ]" of the target line, saves, and leaves every non-task line unchanged. -/
theorem check_task_substring_semantics (ls : List Line) (i : Nat)
    (h1 : 1 ≤ i) (h2 : i - 1 < (tasksOf ls).length) :
    ((check_core i ls).1 = .alreadyComplete ↔
        containsXLower ((tasksOf ls).getD (i - 1) []) = true) ∧
    (containsXLower ((tasksOf ls).getD (i - 1) []) = true →
        check_core i ls = (.alreadyComplete, ls, false)) ∧
    (containsXLower ((tasksOf ls).getD (i - 1) []) = false →
        (check_core i ls).1 = .checked i ∧
        (check_core i ls).2.2 = true ∧
        tasksOf (check_core i ls).2.1 =
          (tasksOf ls).set (i - 1)
            (replaceFirstBox ((tasksOf ls).getD (i - 1) [])) ∧
        nonTasksOf (check_core i ls).2.1 = nonTasksOf ls) := by
  obtain ⟨hlt, hline⟩ := taskIndices_getD_spec ls (i - 1) h2
  have heq := check_core_in_range_eq ls i h1 h2
  rw [hline] at heq
  by_cases hx : containsXLower ((tasksOf ls).getD (i - 1) []) = true
  · rw [if_pos hx] at heq
    rw [heq]
    refine ⟨Iff.intro (fun _ => hx) (fun _ => rfl), fun _ => rfl, fun hfalse => ?_⟩
    rw [hfalse] at hx
    exact absurd hx (by decide)
  · have hx' : containsXLower ((tasksOf ls).getD (i - 1) []) = false := by
      simpa using hx
    rw [if_neg hx] at heq
    have htask := tasksOf_getD_isTaskLine ls (i - 1) h2
    have hv : isTaskLine (replaceFirstBox ((tasksOf ls).getD (i - 1) [])) = true :=
      isTaskLine_replaceFirstBox _ htask
    obtain ⟨hset1, hset2⟩ := taskIndices_set_spec ls (i - 1)
      (replaceFirstBox ((tasksOf ls).getD (i - 1) [])) h2 hv
    rw [heq]
    refine ⟨Iff.intro (fun h => OpResult.noConfusion h)
        (fun htrue => absurd (hx'.symm.trans htrue) (by decide)),
      fun htrue => absurd (hx'.symm.trans htrue) (by decide),
      fun _ => ?_⟩
    exact ⟨rfl, rfl, hset1, hset2⟩

/-- C1 witness: the amended check theorem applied to a complete concrete
task (AlreadyComplete, no save) and to an incomplete one (checked). -/
theorem check_task_substring_semantics_witness :
    check_core 1 [("# Task List").toList, ("- [x] done").toList] =
      (.alreadyComplete, [("# Task List").toList, ("- [x] done").toList], false) ∧
    (check_core 1 [("# Task List").toList, ("- [ ] a").toList]).1 = .checked 1 :=
  ⟨(check_task_substring_semantics _ 1 (by decide) (by decide)).2.1 (by decide),
   ((check_task_substring_semantics _ 1 (by decide) (by decide)).2.2 (by decide)).1⟩

/-- C10: every line whose first three characters are "- [" is enumerated as
a task and ranked (the rank count equals the number of lines with that
three-character prefix, well-formed checkbox or not); for a malformed such
line — no "[x]" substring in its lowercase form and no "[ ]" marker — check
at its rank reports success and saves the file with every line unchanged. -/
theorem check_malformed_task_semantics (ls : List Line) (i : Nat)
    (h1 : 1 ≤ i) (h2 : i - 1 < (tasksOf ls).length)
    (hx : containsXLower ((tasksOf ls).getD (i - 1) []) = false)
    (hob : hasOpenBox ((tasksOf ls).getD (i - 1) []) = false) :
    check_core i ls = (.checked i, ls, true) ∧
    (tasksOf ls).length = ls.countP isTaskLine ∧
    isTaskLine ((tasksOf ls).getD (i - 1) []) = true := by
  obtain ⟨hlt, hline⟩ := taskIndices_getD_spec ls (i - 1) h2
  have heq := check_core_in_range_eq ls i h1 h2
  rw [hline] at heq
  rw [if_neg (by rw [hx]; decide)] at heq
  rw [replaceFirstBox_eq_self _ hob] at heq
  rw [← hline] at heq
  rw [set_getD_self ls _ hlt] at heq
  refine ⟨heq, ?_, tasksOf_getD_isTaskLine ls (i - 1) h2⟩
  show (ls.filter isTaskLine).length = ls.countP isTaskLine
  rw [List.countP_eq_length_filter]

/-- C10 witness: the malformed-line theorem applied to the concrete file
whose only task line is "- [?] note". -/
theorem check_malformed_task_semantics_witness :
    check_core 1 [("# Task List").toList, [], ("- [?] note").toList] =
      (.checked 1, [("# Task List").toList, [], ("- [?] note").toList], true) :=
  (check_malformed_task_semantics _ 1 (by decide) (by decide) (by decide)
    (by decide)).1

/-- C6: for every file state and in-range rank, delete reports the removed
task's text with the three checkbox markers stripped, saves, shrinks the
whole file by exactly one line, removes exactly the rank-i task (every
later task shifts down one rank, as eraseIdx on the task list states), and
leaves the non-task lines unchanged. -/
theorem delete_task_semantics (ls : List Line) (i : Nat)
    (h1 : 1 ≤ i) (h2 : i - 1 < (tasksOf ls).length) :
    (delete_core i ls).1 = .deleted (stripMarkers ((tasksOf ls).getD (i - 1) [])) ∧
    (delete_core i ls).2.2 = true ∧
    (delete_core i ls).2.1.length + 1 = ls.length ∧
    tasksOf (delete_core i ls).2.1 = (tasksOf ls).eraseIdx (i - 1) ∧
    (tasksOf (delete_core i ls).2.1).length + 1 = (tasksOf ls).length ∧
    nonTasksOf (delete_core i ls).2.1 = nonTasksOf ls := by
  obtain ⟨hlt, hline⟩ := taskIndices_getD_spec ls (i - 1) h2
  have heq := delete_core_in_range_eq ls i h1 h2
  rw [hline] at heq
  obtain ⟨he1, he2, he3⟩ := taskIndices_erase_spec ls (i - 1) h2
  rw [heq]
  refine ⟨rfl, rfl, he3, he1, ?_, he2⟩
  rw [he1, List.length_eraseIdx_of_lt h2]
  omega

/-- C6 witness: the delete theorem applied at rank 1 of a concrete file;
the reported text is the line with its markers stripped and the remaining
task is the former rank-2 one. -/
theorem delete_task_semantics_witness :
    (delete_core 1 [("# Task List").toList, ("- [x] buy milk").toList,
      ("- [ ] b").toList]).1 = .deleted (("buy milk").toList) ∧
    tasksOf (delete_core 1 [("# Task List").toList, ("- [x] buy milk").toList,
      ("- [ ] b").toList]).2.1 = [("- [ ] b").toList] :=
  ⟨((delete_task_semantics _ 1 (by decide) (by decide)).1).trans (by decide),
   ((delete_task_semantics _ 1 (by decide) (by decide)).2.2.2.1).trans (by decide)⟩

theorem check_core_twice (ls : List Line) (i : Nat)
    (h1 : 1 ≤ i) (h2 : i - 1 < (tasksOf ls).length)
    (hx : containsXLower ((tasksOf ls).getD (i - 1) []) = false)
    (hob : hasOpenBox ((tasksOf ls).getD (i - 1) []) = true) :
    check_core i ls =
      (.checked i, ls.set ((taskIndices ls).getD (i - 1) 0)
        (replaceFirstBox ((tasksOf ls).getD (i - 1) [])), true) ∧
    check_core i (ls.set ((taskIndices ls).getD (i - 1) 0)
        (replaceFirstBox ((tasksOf ls).getD (i - 1) []))) =
      (.alreadyComplete,
       ls.set ((taskIndices ls).getD (i - 1) 0)
         (replaceFirstBox ((tasksOf ls).getD (i - 1) [])), false) := by
  obtain ⟨hlt, hline⟩ := taskIndices_getD_spec ls (i - 1) h2
  have htask := tasksOf_getD_isTaskLine ls (i - 1) h2
  have heq := check_core_in_range_eq ls i h1 h2
  rw [hline] at heq
  rw [if_neg (by rw [hx]; decide)] at heq
  have hti : taskIndices (ls.set ((taskIndices ls).getD (i - 1) 0)
      (replaceFirstBox ((tasksOf ls).getD (i - 1) []))) = taskIndices ls := by
    refine taskIndicesFrom_set_same ls _ _ 0 ?_
    rw [hline, isTaskLine_replaceFirstBox _ htask, htask]
  have hlen2 : i - 1 < (tasksOf (ls.set ((taskIndices ls).getD (i - 1) 0)
      (replaceFirstBox ((tasksOf ls).getD (i - 1) [])))).length := by
    rw [← length_taskIndices, hti, length_taskIndices]
    exact h2
  have heq2 := check_core_in_range_eq _ i h1 hlen2
  rw [hti] at heq2
  rw [getD_set_self_val ls _ _ hlt] at heq2
  rw [if_pos (containsXLower_replaceFirstBox _ hob)] at heq2
  exact ⟨heq, heq2⟩

/-- C7 counterexample: on the file whose only task line is the malformed
"- [?] note", check(1) succeeds (the line has no "[ ]" marker, so the save
writes it unchanged), and an immediately following check(1) succeeds again
instead of reporting AlreadyComplete, so the claim fails as stated. -/
theorem check_twice_malformed_counterexample :
    (check_task 1 (("# Task List\n\n- [?] note\n").toList)).1 = .checked 1 ∧
    (check_task 1
      (check_task 1 (("# Task List\n\n- [?] note\n").toList)).2.1).1 = .checked 1 ∧
    (check_task 1
      (check_task 1 (("# Task List\n\n- [?] note\n").toList)).2.1).1 ≠
        .alreadyComplete := by
  decide

/-- C7 (amended): for every file content and in-range rank whose target task
is not yet complete (no "[x]" substring) and carries a well-formed "[ ]"
marker, check(i) succeeds, and an immediately following check(i) yields
AlreadyComplete and leaves the file content unchanged without writing. -/
theorem check_twice_alreadyComplete (c : Content) (i : Nat)
    (h1 : 1 ≤ i) (h2 : i - 1 < (tasksOf (load_tasks c)).length)
    (hx : containsXLower ((tasksOf (load_tasks c)).getD (i - 1) []) = false)
    (hob : hasOpenBox ((tasksOf (load_tasks c)).getD (i - 1) []) = true) :
    (check_task i c).1 = .checked i ∧
    check_task i (check_task i c).2.1 =
      (.alreadyComplete, (check_task i c).2.1, false) := by
  obtain ⟨hcore1, hcore2⟩ := check_core_twice (load_tasks c) i h1 h2 hx hob
  have hct : check_task i c =
      (.checked i,
       save_tasks ((load_tasks c).set ((taskIndices (load_tasks c)).getD (i - 1) 0)
         (replaceFirstBox ((tasksOf (load_tasks c)).getD (i - 1) []))),
       true) := by
    unfold check_task runOnContent
    rw [hcore1]
    rfl
  have hlsne : load_tasks c ≠ [] := by
    intro he
    rw [he] at h2
    simp [tasksOf] at h2
  have hbfree : ∀ l ∈ load_tasks c, breakFree l = true :=
    fun l hl => breakFree_splitlines (translateNewlines c) l hl
  have htmem : (tasksOf (load_tasks c)).getD (i - 1) [] ∈ load_tasks c :=
    List.mem_of_mem_filter (tasksOf_getD_mem _ _ h2)
  have hload1 : load_tasks (save_tasks ((load_tasks c).set
      ((taskIndices (load_tasks c)).getD (i - 1) 0)
      (replaceFirstBox ((tasksOf (load_tasks c)).getD (i - 1) [])))) =
      (load_tasks c).set ((taskIndices (load_tasks c)).getD (i - 1) 0)
        (replaceFirstBox ((tasksOf (load_tasks c)).getD (i - 1) [])) := by
    refine load_tasks_save_tasks _ ?_ ?_
    · intro he
      have hlen := congrArg List.length he
      rw [List.length_set] at hlen
      exact hlsne (List.length_eq_zero.mp (by simpa using hlen))
    · intro l hl
      rcases List.mem_or_eq_of_mem_set hl with h | h
      · exact hbfree l h
      · rw [h]
        exact breakFree_replaceFirstBox _ (hbfree _ htmem)
  constructor
  · rw [hct]
  · rw [hct]
    unfold check_task runOnContent
    rw [hload1, hcore2]
    rfl

/-- C7 witness: the double-check theorem applied to the concrete file
"# Task List, blank, - [ ] a": the first check succeeds and the second
reports AlreadyComplete with unchanged content. -/
theorem check_twice_alreadyComplete_witness :
    (check_task 1 (("# Task List\n\n- [ ] a\n").toList)).1 = .checked 1 ∧
    check_task 1 (check_task 1 (("# Task List\n\n- [ ] a\n").toList)).2.1 =
      (.alreadyComplete,
       (check_task 1 (("# Task List\n\n- [ ] a\n").toList)).2.1, false) :=
  check_twice_alreadyComplete _ 1 (by decide) (by decide) (by decide) (by decide)

theorem not_task_not_done (l : Line) :
    ((! isTaskLine l) && (! doneMark.isPrefixOf l)) = (! isTaskLine l) := by
  cases ht : isTaskLine l
  · cases hd : doneMark.isPrefixOf l
    · rfl
    · exact absurd (doneMark_isTaskLine l hd) (by rw [ht]; decide)
  · rfl

theorem nonTasksOf_filter_done (ls : List Line) :
    nonTasksOf (ls.filter (fun l => ! doneMark.isPrefixOf l)) = nonTasksOf ls := by
  unfold nonTasksOf
  rw [List.filter_filter]
  have hfun : (fun l : Line => (! isTaskLine l) && (! doneMark.isPrefixOf l)) =
      (fun l : Line => ! isTaskLine l) := funext not_task_not_done
  rw [hfun]

theorem nonTasksOf_filter_not_task (ls : List Line) :
    nonTasksOf (ls.filter (fun l => ! isTaskLine l)) = nonTasksOf ls := by
  unfold nonTasksOf
  rw [List.filter_filter]
  have hfun : (fun l : Line => (! isTaskLine l) && (! isTaskLine l)) =
      (fun l : Line => ! isTaskLine l) := by
    funext l
    exact Bool.and_self _
  rw [hfun]

theorem isTaskLine_added_line (st : List Char) :
    isTaskLine ('-' :: ' ' :: '[' :: ' ' :: ']' :: ' ' :: st) = true := by
  simp [isTaskLine, taskMark, List.isPrefixOf]

theorem breakFree_added_line (text : List Char)
    (h : ∀ ch ∈ text, isLineBreak ch = false) :
    breakFree (['-', ' ', '[', ' ', ']', ' '] ++ pyStrip text) = true := by
  rw [breakFree, List.all_eq_true]
  intro ch hch
  rcases List.mem_append.mp hch with h1 | h1
  · fin_cases h1 <;> decide
  · have := h ch (mem_pyStrip text ch h1)
    simp [this]

theorem no_cr_added_tail (text : List Char)
    (h : ∀ ch ∈ text, isLineBreak ch = false) :
    '\r' ∉ (['-', ' ', '[', ' ', ']', ' '] ++ pyStrip text) ++ ['\n'] := by
  intro hmem
  rcases List.mem_append.mp hmem with h1 | h1
  · have hb := breakFree_added_line text h
    rw [breakFree, List.all_eq_true] at hb
    have := hb '\r' h1
    exact absurd this (by decide)
  · simp at h1

theorem load_tasks_add_line (text : List Char) (c : Content)
    (hc : c = [] ∨ c.getLast? = some '\n')
    (h : ∀ ch ∈ text, isLineBreak ch = false) :
    load_tasks ((c ++ ['-', ' ', '[', ' ', ']', ' '] ++ pyStrip text) ++ ['\n']) =
      load_tasks c ++ [['-', ' ', '[', ' ', ']', ' '] ++ pyStrip text] := by
  have hsplit1 : splitlines ((['-', ' ', '[', ' ', ']', ' '] ++ pyStrip text) ++ ['\n']) =
      [['-', ' ', '[', ' ', ']', ' '] ++ pyStrip text] := by
    have := splitlines_append_nl (['-', ' ', '[', ' ', ']', ' '] ++ pyStrip text) []
      (breakFree_added_line text h)
    simpa [splitlines] using this
  rcases hc with hc | hc
  · subst hc
    unfold load_tasks
    rw [translateNewlines_eq_self _ (by
      intro hmem
      rw [List.nil_append] at hmem
      exact no_cr_added_tail text h hmem)]
    show splitlines ((['-', ' ', '[', ' ', ']', ' '] ++ pyStrip text) ++ ['\n']) = _
    rw [hsplit1]
    rfl
  · have hshape : (c ++ ['-', ' ', '[', ' ', ']', ' '] ++ pyStrip text) ++ ['\n'] =
        c ++ ((['-', ' ', '[', ' ', ']', ' '] ++ pyStrip text) ++ ['\n']) := by
      simp [List.append_assoc]
    rw [hshape]
    unfold load_tasks
    rw [translateNewlines_append c _ (by rw [hc]; simp)]
    rw [translateNewlines_eq_self _ (no_cr_added_tail text h)]
    have hTnl : (translateNewlines c).getLast? = some '\n' :=
      getLast?_translateNewlines c hc
    obtain ⟨z, hz⟩ := List.getLast?_eq_some_iff.mp hTnl
    rw [hz]
    have hshape2 : (z ++ ['\n']) ++ ((['-', ' ', '[', ' ', ']', ' '] ++ pyStrip text) ++ ['\n']) =
        z ++ '\n' :: ((['-', ' ', '[', ' ', ']', ' '] ++ pyStrip text) ++ ['\n']) := by
      simp
    rw [hshape2, splitlines_newline_boundary, hsplit1, ← hz]

/-- C9 counterexample: on the readable file content "# Task List" with no
final newline (the repair step accepts it unchanged since it starts with the
header), add appends its task bytes directly, merging the header line into
"# Task List- [ ] t"; the non-task line "# Task List" is not preserved, so
the claim fails as stated for add. -/
theorem add_merges_unterminated_line_counterexample :
    nonTasksOf (load_tasks (add_task (("t").toList) (("# Task List").toList)).2.1) ≠
      nonTasksOf (load_tasks (("# Task List").toList)) := by decide

/-- C9 (amended): check, delete, clearCompleted and clearAll preserve,
verbatim and in their relative order, every line that is not a task line;
add also preserves them provided the file content is empty or ends with a
line terminator — the state the program's own writes always maintain —
whereas on content whose final line is unterminated the appended task text
is glued onto that final line. -/
theorem ops_preserve_non_task_lines :
    (∀ (i : Nat) (ls : List Line),
        nonTasksOf (check_core i ls).2.1 = nonTasksOf ls) ∧
    (∀ (i : Nat) (ls : List Line),
        nonTasksOf (delete_core i ls).2.1 = nonTasksOf ls) ∧
    (∀ ls : List Line, nonTasksOf (clear_done_core ls).2.1 = nonTasksOf ls) ∧
    (∀ ls : List Line, nonTasksOf (clear_all_core ls).2.1 = nonTasksOf ls) ∧
    (∀ (text : List Char) (c : Content),
        c = [] ∨ c.getLast? = some '\n' →
        (∀ ch ∈ text, isLineBreak ch = false) →
        nonTasksOf (load_tasks (add_task text c).2.1) =
          nonTasksOf (load_tasks c)) := by
  refine ⟨?_, ?_, ?_, ?_, ?_⟩
  · intro i ls
    by_cases hrange : i < 1 ∨ i > (taskIndices ls).length
    · unfold check_core
      rw [if_pos hrange]
    · have h1 : 1 ≤ i := by omega
      have h2 : i - 1 < (tasksOf ls).length := by
        rw [← length_taskIndices]
        omega
      obtain ⟨hlt, hline⟩ := taskIndices_getD_spec ls (i - 1) h2
      have heq := check_core_in_range_eq ls i h1 h2
      by_cases hx : containsXLower (ls.getD ((taskIndices ls).getD (i - 1) 0) []) = true
      · rw [if_pos hx] at heq
        rw [heq]
      · rw [if_neg hx] at heq
        rw [heq]
        have htask := tasksOf_getD_isTaskLine ls (i - 1) h2
        have hv : isTaskLine (replaceFirstBox ((tasksOf ls).getD (i - 1) [])) = true :=
          isTaskLine_replaceFirstBox _ htask
        obtain ⟨hset1, hset2⟩ := taskIndices_set_spec ls (i - 1)
          (replaceFirstBox ((tasksOf ls).getD (i - 1) [])) h2 hv
        show nonTasksOf (ls.set ((taskIndices ls).getD (i - 1) 0)
          (replaceFirstBox (ls.getD ((taskIndices ls).getD (i - 1) 0) []))) = nonTasksOf ls
        rw [hline]
        exact hset2
  · intro i ls
    by_cases hrange : i < 1 ∨ i > (taskIndices ls).length
    · unfold delete_core
      rw [if_pos hrange]
    · have h1 : 1 ≤ i := by omega
      have h2 : i - 1 < (tasksOf ls).length := by
        rw [← length_taskIndices]
        omega
      have heq := delete_core_in_range_eq ls i h1 h2
      rw [heq]
      exact (taskIndices_erase_spec ls (i - 1) h2).2.1
  · intro ls
    exact nonTasksOf_filter_done ls
  · intro ls
    by_cases hn : (ls.filter isTaskLine).length = 0
    · unfold clear_all_core
      rw [if_pos hn]
    · unfold clear_all_core
      rw [if_neg hn]
      exact nonTasksOf_filter_not_task ls
  · intro text c hc h
    by_cases hstrip : pyStrip text = []
    · unfold add_task
      rw [if_pos hstrip]
    · unfold add_task
      rw [if_neg hstrip]
      show nonTasksOf (load_tasks
        ((c ++ ['-', ' ', '[', ' ', ']', ' '] ++ pyStrip text) ++ ['\n'])) = _
      rw [load_tasks_add_line text c hc h]
      unfold nonTasksOf
      rw [List.filter_append]
      have hzero : List.filter (fun l => ! isTaskLine l)
          [['-', ' ', '[', ' ', ']', ' '] ++ pyStrip text] = [] := by
        simp [List.filter_cons, isTaskLine_added_line]
      rw [hzero, List.append_nil]

/-- C9 witness: the preservation theorem applied to concrete inputs: a check
on a two-line file keeps its header, and an add on newline-terminated
content keeps its non-task lines. -/
theorem ops_preserve_non_task_lines_witness :
    nonTasksOf (check_core 1 [("# Task List").toList, ("- [ ] a").toList]).2.1 =
      nonTasksOf [("# Task List").toList, ("- [ ] a").toList] ∧
    nonTasksOf (load_tasks (add_task (("t").toList) (("# Task List\n").toList)).2.1) =
      nonTasksOf (load_tasks (("# Task List\n").toList)) :=
  ⟨ops_preserve_non_task_lines.1 1 _,
   ops_preserve_non_task_lines.2.2.2.2 (("t").toList) _ (Or.inr (by decide))
     (by decide)⟩
